import Mathlib

/-!
Verification of the IAB-vendor-compliance harness (Go sources): a shallow
embedding of the cookie store, the cookie-expiry classifier, the proxy's
request/response interception handlers, the checkpoint save/load pair, the
CMP-metadata default substitution, and the result-row emission — followed by
theorems settling the stated properties of each.

The embedding follows `src/unnamed/part_001` (the refined
`extract-third-party-cookies.go` variant) unless noted otherwise; Go
`time.Time` values are modelled as integer instants where the zero value is
`0` and `Before` is strict `<`.
-/

namespace IABCompliance

/-- Go `time.Time`, modelled as an integer instant: the zero value is `0`,
`IsZero` is equality with `0`, and `Before` is strict `<`. -/
abbrev GoTime := Int

/-- `net/http.Cookie`: the fields the harness reads. `Expires` is a `GoTime`
and `MaxAge` a Go `int`. -/
structure Cookie where
  name : String
  domain : String
  value : String
  path : String
  expires : GoTime
  maxAge : Int
deriving DecidableEq

/-- `isCookieExpired` (`src/unnamed/part_001` lines 125-136): a `nil` cookie
pointer is modelled as `none`. The Go body checks, in order: `cookie == nil`,
`cookie.Expires.IsZero()`, `cookie.MaxAge < 0`, then returns
`cookie.Expires.Before(time.Now())` with `now` passed explicitly here. -/
def isCookieExpired (cookie : Option Cookie) (now : GoTime) : Bool :=
  match cookie with
  | none => true
  | some c =>
    if c.expires = 0 then true
    else if c.maxAge < 0 then true
    else decide (c.expires < now)

/-- The identity of a cookie: the `(Name, Domain)` pair the store is keyed by. -/
def cookieKey (c : Cookie) : String × String := (c.name, c.domain)

/-- Whether a cookie carries the identity `k`. -/
def matchesKey (k : String × String) (c : Cookie) : Bool := decide (cookieKey c = k)

/-- `updateCookieList` (`src/unnamed/part_001` lines 338-357): the Go loop
scans for the first entry with the same `Name` and `Domain`; if found it
replaces that entry with `newCookie`, otherwise it appends `newCookie`.
(The `sync.Mutex` serialises calls; the sequential semantics is this.) -/
def updateCookieList : List Cookie → Cookie → List Cookie
  | [], newCookie => [newCookie]
  | c :: cs, newCookie =>
    if c.name = newCookie.name ∧ c.domain = newCookie.domain then newCookie :: cs
    else c :: updateCookieList cs newCookie

/-- Folding a batch of observed cookies into the store, one `updateCookieList`
call per cookie, as the response handler's `for` loop does. -/
def upsertAll (store : List Cookie) (newCookies : List Cookie) : List Cookie :=
  newCookies.foldl updateCookieList store

/-- The store produced by a whole sequence of upserts, starting from the
`nil` slice `run` declares. -/
def upserts (ops : List Cookie) : List Cookie := upsertAll [] ops

/-- The entry the store holds under identity `k` (the first match, which is
unique once the store's invariant holds). -/
def findKey (k : String × String) (l : List Cookie) : Option Cookie :=
  l.find? (matchesKey k)

/-- Go `strings.HasPrefix(s, pat)` on rune lists. -/
def startsWith : List Char → List Char → Bool
  | _, [] => true
  | [], _ :: _ => false
  | c :: cs, d :: ds => c = d && startsWith cs ds

/-- Go `strings.Contains(s, pat)` on rune lists: some suffix of `s` starts
with `pat`. -/
def containsSub : List Char → List Char → Bool
  | [], pat => pat.isEmpty
  | c :: rest, pat => startsWith (c :: rest) pat || containsSub rest pat

/-- Go `strings.Contains(s, substr)`. -/
def goContains (s substr : String) : Bool := containsSub s.data substr.data

/-- `main` builds the value passed as `targetURL` to `run` as
`"https://" + domain` (`src/unnamed/part_001` line 580). -/
def mkTargetURL (domain : String) : String := "https://" ++ domain

/-- An outbound request as the proxy handler sees it: its `URL.Host` and the
cookies on its `Cookie` header. -/
structure Request where
  host : String
  cookieHeader : List Cookie
deriving DecidableEq

/-- An inbound response as the proxy handler sees it: its originating
`Request.URL.Host` and the cookies of its `Set-Cookie` headers. -/
structure Response where
  host : String
  setCookies : List Cookie
deriving DecidableEq

/-- The `proxy.OnRequest` handler (`src/unnamed/part_001` lines 405-414):
when `strings.Contains(req.URL.Host, targetURL)`, every stored cookie is
added to the request's `Cookie` header (`req.AddCookie` appends). -/
def onRequest (targetURL : String) (store : List Cookie) (req : Request) : Request :=
  if goContains req.host targetURL then
    { req with cookieHeader := req.cookieHeader ++ store }
  else req

/-- The `proxy.OnResponse` handler (`src/unnamed/part_001` lines 417-430) for
a non-`nil` response with a non-`nil` request: unless
`strings.Contains(resp.Request.URL.Host, targetURL)`, each `Set-Cookie`
cookie is upserted into the store via `updateCookieList`. -/
def onResponse (targetURL : String) (store : List Cookie) (resp : Response) : List Cookie :=
  if goContains resp.host targetURL then store
  else upsertAll store resp.setCookies

/-- The checkpoint values persisted by `main`'s domain loop
(`src/unnamed/part_001` lines 571-594), in order: an index below
`lastProcessedIndex` is skipped (`continue`), any other index is processed
and ends with `saveProgress(index + 1)`. The list argument is
`domains.enum`, matching Go's `for index, domain := range domains`. -/
def loopSaves : List (Nat × String) → Nat → List Nat
  | [], _ => []
  | (index, _) :: rest, lastIdx =>
    if index < lastIdx then loopSaves rest lastIdx
    else (index + 1) :: loopSaves rest lastIdx

/-- All checkpoint values `main` persists: the loop's saves followed by the
final `saveProgress(0)` (`src/unnamed/part_001` line 597). -/
def mainSaves (domains : List String) (lastIdx : Nat) : List Nat :=
  loopSaves domains.enum lastIdx ++ [0]

/-- The outcome of one `chromedp.EvaluateAsDevTools` call into a `float64`
variable pre-set to `-1`: either the evaluation errors, or it leaves the
variable holding `v` (an unwritten variable is `v = -1`, the sentinel the
code tests). -/
inductive EvalOutcome where
  | error : EvalOutcome
  | value : Int → EvalOutcome
deriving DecidableEq

/-- `evaluateJSAndGetInteger` (`src/unnamed/part_001` lines 203-217): on an
evaluation error return the error; otherwise return the value when it is not
the `-1` sentinel, the first optional default when one was passed, and `0`
otherwise. The Go variadic `defaultValue ...int` is a list. -/
def evaluateJSAndGetInteger (outcome : EvalOutcome) (defaultValue : List Int) : Except Unit Int :=
  match outcome with
  | .error => .error ()
  | .value v =>
    if v ≠ -1 then .ok v
    else
      match defaultValue with
      | d :: _ => .ok d
      | [] => .ok 0

/-- The CMP metadata `setConsent` reads before building the consent record. -/
structure CmpMetadata where
  cmpId : Int
  cmpVersion : Int
  vendorListVersion : Int
deriving DecidableEq

/-- The metadata-reading half of `setConsent` (`src/unnamed/part_001` lines
176-200): three `evaluateJSAndGetInteger` calls — `cmpIDJS` with no default,
`cmpVerJS` with default `1`, `gvlVerJS` with default `189` — each propagating
its evaluation error. -/
def setConsentMeta (idOutcome verOutcome gvlOutcome : EvalOutcome) : Except Unit CmpMetadata := do
  let intCmpID ← evaluateJSAndGetInteger idOutcome []
  let intCmpVer ← evaluateJSAndGetInteger verOutcome [1]
  let intGvlVer ← evaluateJSAndGetInteger gvlOutcome [189]
  return ⟨intCmpID, intCmpVer, intGvlVer⟩

/-- The terminal states of the per-domain browser session. -/
inductive SessionState where
  | Done : SessionState
  | Failed : SessionState
deriving DecidableEq

/-- `runChromedp`'s action sequence (`src/unnamed/part_001` lines 370-381)
stops at the first action that returns an error. `waitForTcfApi` always
returns nil (a timeout just exits its loop), and `getTCstring` /
`getTcEventStatus` log script errors and return nil, so the only action that
can abort the sequence is `setConsent`: the session reaches the final
`about:blank` navigation exactly when `setConsent` succeeds. -/
def sessionOutcome (idOutcome verOutcome gvlOutcome : EvalOutcome) : SessionState :=
  match setConsentMeta idOutcome verOutcome gvlOutcome with
  | .ok _ => .Done
  | .error _ => .Failed

/-- The decimal value of a digit list, accumulated left to right as Go's
`strconv` does (`'0'` has code point 48). -/
def digitsVal (cs : List Char) : Nat :=
  cs.foldl (fun n c => n * 10 + (c.toNat - 48)) 0

/-- Go `strconv.Atoi` on rune lists: an optional single `+`/`-` sign followed
by at least one decimal digit; anything else is an error (`none`). The
64-bit range check is not modelled (the integers here are unbounded). -/
def goAtoiChars : List Char → Option Int
  | [] => none
  | c :: cs =>
    if c = '+' then
      if cs ≠ [] ∧ cs.all Char.isDigit then some ((digitsVal cs : Int)) else none
    else if c = '-' then
      if cs ≠ [] ∧ cs.all Char.isDigit then some (-(digitsVal cs : Int)) else none
    else if (c :: cs).all Char.isDigit then some ((digitsVal (c :: cs) : Int)) else none

/-- Go `strconv.Atoi`. -/
def goAtoi (s : String) : Option Int := goAtoiChars s.data

/-- `loadProgress` (`src/unnamed/part_001` lines 108-122): the argument is
the checkpoint file's state, `none` when `ioutil.ReadFile` fails (absent or
unreadable file). A read error or an `strconv.Atoi` error yields `0`;
otherwise the parsed integer is returned. -/
def loadProgress (file : Option String) : Int :=
  match file with
  | none => 0
  | some data =>
    match goAtoi data with
    | none => 0
    | some index => index

/-- The decimal digits of a natural number, most significant first. -/
def natToDigits (n : Nat) : List Char :=
  if _h : n < 10 then [Nat.digitChar n]
  else natToDigits (n / 10) ++ [Nat.digitChar (n % 10)]
termination_by n
decreasing_by exact Nat.div_lt_self (by omega) (by omega)

/-- Go `strconv.Itoa`: minus sign for negative values, then the decimal
digits of the absolute value. -/
def goItoa (i : Int) : String :=
  if i < 0 then ⟨'-' :: natToDigits i.natAbs⟩ else ⟨natToDigits i.natAbs⟩

/-- `saveProgress` (`src/unnamed/part_001` lines 93-105): the checkpoint
file's state after the write — it holds exactly `strconv.Itoa(index)`. -/
def saveProgress (index : Int) : Option String := some (goItoa index)

/-- Go `strings.Split(s, ".")` on rune lists (the separator `"."` is one
rune): splitting the empty string yields one empty field, and each `'.'`
starts a new field. -/
def goSplitDot : List Char → List (List Char)
  | [] => [[]]
  | c :: cs =>
    if c = '.' then [] :: goSplitDot cs
    else
      match goSplitDot cs with
      | [] => [[c]]
      | p :: ps => (c :: p) :: ps

/-- `strings.Split(s, ".")[0]` — the indexing is safe because Go's `Split`
never returns an empty slice. -/
def firstDotSegment (s : String) : List Char := (goSplitDot s.data).headD []

/-- One output row of `main`'s CSV (`src/unnamed/part_001` line 586), with
the two computed boolean columns kept as booleans. -/
structure ResultRow where
  website : String
  cookieDomain : String
  name : String
  value : String
  path : String
  expires : GoTime
  isExpiredField : Bool
  generatedConsentString : String
  apiConsentString : String
  stringsEqual : Bool
  eventStatusBefore : String
  eventStatusAfter : String
  statusUpdated : Bool
deriving DecidableEq

/-- `main`'s row-writing loop (`src/unnamed/part_001` lines 583-589): one row
per cookie with `!isCookieExpired(c)`; the `StringsEqual` column compares
`strings.Split(tcString, ".")[0]` with `strings.Split(apiTcString, ".")[0]`,
and `Status Updated` is `eventStatusBeforeRL != eventStatusAfterRL`. -/
def emitRows (website : String) (cookies : List Cookie)
    (tcString apiTcString eventStatusBeforeRL eventStatusAfterRL : String)
    (now : GoTime) : List ResultRow :=
  (cookies.filter (fun c => !isCookieExpired (some c) now)).map fun c =>
    { website := website
      cookieDomain := c.domain
      name := c.name
      value := c.value
      path := c.path
      expires := c.expires
      isExpiredField := isCookieExpired (some c) now
      generatedConsentString := tcString
      apiConsentString := apiTcString
      stringsEqual := decide (firstDotSegment tcString = firstDotSegment apiTcString)
      eventStatusBefore := eventStatusBeforeRL
      eventStatusAfter := eventStatusAfterRL
      statusUpdated := decide (eventStatusBeforeRL ≠ eventStatusAfterRL) }

/-- A concrete boundary cookie: nonzero expiry `5`, `MaxAge = 0`. -/
def boundaryCookie : Cookie :=
  { name := "id", domain := "x.com", value := "1", path := "/", expires := 5, maxAge := 0 }

/-- A concrete third-party cookie used in witnesses. -/
def ckA : Cookie :=
  { name := "id", domain := "x.com", value := "1", path := "/", expires := 9, maxAge := 0 }

/-- A second cookie with the same identity as `ckA` but a newer value. -/
def ckB : Cookie :=
  { name := "id", domain := "x.com", value := "2", path := "/", expires := 9, maxAge := 0 }

/-- The row `emitRows` produces in the concrete witness scenario. -/
def rowW : ResultRow :=
  { website := "w"
    cookieDomain := "x.com"
    name := "id"
    value := "1"
    path := "/"
    expires := 9
    isExpiredField := false
    generatedConsentString := "abc.x"
    apiConsentString := "abc.y"
    stringsEqual := true
    eventStatusBefore := "tcloaded"
    eventStatusAfter := "cmpuishown"
    statusUpdated := true }

end IABCompliance

namespace IABCompliance

/-- Claim C3, counterexample: at the boundary `expiry = now` (here both `5`,
with nonzero expiry and nonnegative max-age) the code classifies the cookie
as NOT expired, because `Expires.Before(now)` is strict; the claim's
`expiry <= now` disjunct demands expired, so the stated iff fails. -/
theorem isCookieExpired_boundary_counterexample :
    ¬ (isCookieExpired (some boundaryCookie) 5 = true ↔
        (boundaryCookie.expires = 0 ∨ boundaryCookie.expires ≤ 5 ∨ boundaryCookie.maxAge < 0)) := by
  decide

/-- Claim C3, amended: the expired classification returns `true` iff the
expiry timestamp is the zero value, OR the expiry timestamp is strictly
before the evaluation time, OR the max-age is negative; at the boundary
`expiry = now` (expiry nonzero, max-age nonnegative) it returns `false`. -/
theorem isCookieExpired_classification (c : Cookie) (now : GoTime) :
    isCookieExpired (some c) now = true ↔
      (c.expires = 0 ∨ c.expires < now ∨ c.maxAge < 0) := by
  simp only [isCookieExpired]
  split_ifs with h1 h2
  · simp [h1]
  · simp [h2]
  · simp [h1, h2]

/-- Claim C10: the expired-cookie classifier is total, and on the absent
(`nil`) cookie it returns `true` immediately, in the branch taken before any
field of the cookie is touched — which is what makes the later field
accesses of the non-`nil` branch safe. -/
theorem isCookieExpired_nil (now : GoTime) : isCookieExpired none now = true := rfl

lemma cookieKey_eq_iff (a b : Cookie) :
    cookieKey a = cookieKey b ↔ a.name = b.name ∧ a.domain = b.domain := by
  simp [cookieKey, Prod.ext_iff]

lemma findKey_cons_of_ne {k : String × String} {c : Cookie} (hc : cookieKey c ≠ k)
    (l : List Cookie) : findKey k (c :: l) = findKey k l := by
  simp [findKey, List.find?_cons, matchesKey, hc]

lemma findKey_updateCookieList (k : String × String) (l : List Cookie) (nc : Cookie) :
    findKey k (updateCookieList l nc) =
      if cookieKey nc = k then some nc else findKey k l := by
  induction l with
  | nil =>
    by_cases hk : cookieKey nc = k <;>
      simp [findKey, updateCookieList, matchesKey, hk]
  | cons c cs ih =>
    by_cases hck : c.name = nc.name ∧ c.domain = nc.domain
    · have hkey : cookieKey c = cookieKey nc := (cookieKey_eq_iff c nc).2 hck
      by_cases hk : cookieKey nc = k <;>
        simp [findKey, updateCookieList, matchesKey, hck, hk, hkey]
    · have hkey : cookieKey c ≠ cookieKey nc := fun h => hck ((cookieKey_eq_iff c nc).1 h)
      by_cases hc : cookieKey c = k
      · have hk : cookieKey nc ≠ k := fun h => hkey (hc.trans h.symm)
        simp [findKey, updateCookieList, matchesKey, hck, hc, hk]
      · simp only [updateCookieList, if_neg hck]
        rw [findKey_cons_of_ne hc, ih]
        by_cases hk : cookieKey nc = k
        · simp [hk]
        · simp [hk, findKey_cons_of_ne hc]

lemma mem_updateCookieList {b nc : Cookie} {l : List Cookie}
    (h : b ∈ updateCookieList l nc) : b ∈ l ∨ b = nc := by
  induction l with
  | nil => simpa [updateCookieList] using h
  | cons c cs ih =>
    by_cases hck : c.name = nc.name ∧ c.domain = nc.domain
    · simp only [updateCookieList, if_pos hck] at h
      rcases List.mem_cons.1 h with rfl | h
      · exact Or.inr rfl
      · exact Or.inl (List.mem_cons_of_mem _ h)
    · simp only [updateCookieList, if_neg hck] at h
      rcases List.mem_cons.1 h with rfl | h
      · exact Or.inl (List.mem_cons_self _ _)
      · rcases ih h with h' | h'
        · exact Or.inl (List.mem_cons_of_mem _ h')
        · exact Or.inr h'

lemma pairwise_updateCookieList {l : List Cookie} (nc : Cookie)
    (h : l.Pairwise fun a b => cookieKey a ≠ cookieKey b) :
    (updateCookieList l nc).Pairwise fun a b => cookieKey a ≠ cookieKey b := by
  induction l with
  | nil => simp [updateCookieList]
  | cons c cs ih =>
    rw [List.pairwise_cons] at h
    obtain ⟨hc, hcs⟩ := h
    by_cases hck : c.name = nc.name ∧ c.domain = nc.domain
    · have hkey : cookieKey nc = cookieKey c := ((cookieKey_eq_iff c nc).2 hck).symm
      simp only [updateCookieList, if_pos hck]
      rw [List.pairwise_cons]
      exact ⟨fun b hb => hkey ▸ hc b hb, hcs⟩
    · have hkey : cookieKey c ≠ cookieKey nc := fun hk => hck ((cookieKey_eq_iff c nc).1 hk)
      simp only [updateCookieList, if_neg hck]
      rw [List.pairwise_cons]
      refine ⟨fun b hb => ?_, ih hcs⟩
      rcases mem_updateCookieList hb with hb' | rfl
      · exact hc b hb'
      · exact hkey

lemma pairwise_upsertAll (ops : List Cookie) (acc : List Cookie)
    (h : acc.Pairwise fun a b => cookieKey a ≠ cookieKey b) :
    (upsertAll acc ops).Pairwise fun a b => cookieKey a ≠ cookieKey b := by
  induction ops generalizing acc with
  | nil => exact h
  | cons c ops ih => exact ih _ (pairwise_updateCookieList c h)

lemma findKey_upsertAll (k : String × String) (ops acc : List Cookie) :
    findKey k (upsertAll acc ops) =
      (ops.reverse.find? (matchesKey k)).or (findKey k acc) := by
  induction ops generalizing acc with
  | nil => simp [upsertAll]
  | cons c ops ih =>
    have hstep : upsertAll acc (c :: ops) = upsertAll (updateCookieList acc c) ops := rfl
    rw [hstep, ih, findKey_updateCookieList, List.reverse_cons, List.find?_append]
    by_cases hk : cookieKey c = k
    · have hm : matchesKey k c = true := by simp [matchesKey, hk]
      cases hfind : ops.reverse.find? (matchesKey k) <;>
        simp [hm, hk, Option.or]
    · have hm : matchesKey k c = false := by simp [matchesKey, hk]
      cases hfind : ops.reverse.find? (matchesKey k) <;>
        simp [hm, hk, Option.or]

lemma updateCookieList_fresh {l : List Cookie} {nc : Cookie}
    (h : ∀ c ∈ l, cookieKey c ≠ cookieKey nc) :
    updateCookieList l nc = l ++ [nc] := by
  induction l with
  | nil => rfl
  | cons c cs ih =>
    have hck : ¬ (c.name = nc.name ∧ c.domain = nc.domain) :=
      fun hc => h c (List.mem_cons_self c cs) ((cookieKey_eq_iff c nc).2 hc)
    simp only [updateCookieList, if_neg hck, List.cons_append]
    rw [ih (fun d hd => h d (List.mem_cons_of_mem c hd))]

/-- Claim C2: after any sequence of upserts the store holds at most one entry
per identity (its keys are pairwise distinct); the entry held under identity
`k` is exactly the most recent upsert with that identity (the first match in
the reversed upsert sequence) — so an identity is present iff some upsert
carried it, with the value of the latest such upsert; and an upsert whose
identity is fresh appends a new entry. -/
theorem cookieStore_upsert_spec (ops : List Cookie) (k : String × String)
    (l : List Cookie) (nc : Cookie) :
    ((upserts ops).Pairwise fun a b => cookieKey a ≠ cookieKey b)
    ∧ findKey k (upserts ops) = ops.reverse.find? (matchesKey k)
    ∧ ((∀ c ∈ l, cookieKey c ≠ cookieKey nc) → updateCookieList l nc = l ++ [nc]) := by
  refine ⟨pairwise_upsertAll ops [] (by simp), ?_, fun h => updateCookieList_fresh h⟩
  rw [upserts, findKey_upsertAll]
  cases ops.reverse.find? (matchesKey k) <;> simp [findKey, Option.or]

/-- Claim C2, witness: upserting `ckA` then `ckB` (same identity, newer
value) leaves a store whose keys are pairwise distinct, holding `ckB` under
the shared identity; the first upsert into the empty store appends. -/
theorem cookieStore_upsert_spec_witness :
    ((upserts [ckA, ckB]).Pairwise fun a b => cookieKey a ≠ cookieKey b)
    ∧ findKey ("id", "x.com") (upserts [ckA, ckB]) =
        [ckA, ckB].reverse.find? (matchesKey ("id", "x.com"))
    ∧ updateCookieList [] ckA = [] ++ [ckA] := by
  obtain ⟨h1, h2, h3⟩ := cookieStore_upsert_spec [ckA, ckB] ("id", "x.com") [] ckA
  exact ⟨h1, h2, h3 (by simp)⟩

lemma mem_of_startsWith {s pat : List Char} (h : startsWith s pat = true) :
    ∀ ch ∈ pat, ch ∈ s := by
  induction pat generalizing s with
  | nil => simp
  | cons d ds ih =>
    cases s with
    | nil => simp [startsWith] at h
    | cons c cs =>
      simp only [startsWith, Bool.and_eq_true, decide_eq_true_eq] at h
      obtain ⟨hc, hs⟩ := h
      intro ch hch
      rcases List.mem_cons.1 hch with rfl | hch
      · exact List.mem_cons.2 (Or.inl hc.symm)
      · exact List.mem_cons_of_mem _ (ih hs ch hch)

lemma mem_of_containsSub {s pat : List Char} (h : containsSub s pat = true) :
    ∀ ch ∈ pat, ch ∈ s := by
  induction s with
  | nil =>
    simp only [containsSub, List.isEmpty_iff] at h
    subst h
    simp
  | cons c cs ih =>
    simp only [containsSub, Bool.or_eq_true] at h
    rcases h with h | h
    · exact mem_of_startsWith h
    · exact fun ch hch => List.mem_cons_of_mem _ (ih h ch hch)

lemma goContains_mkTargetURL_eq_false (host domain : String) (h : '/' ∉ host.data) :
    goContains host (mkTargetURL domain) = false := by
  by_contra hcontra
  rw [Bool.not_eq_false] at hcontra
  apply h
  apply mem_of_containsSub hcontra
  rw [mkTargetURL, String.data_append]
  exact List.mem_append_left _ (by decide)

/-- Claim C1 (the bug it runs into): `run` receives the scheme-prefixed URL
`"https://" + domain` as `targetURL`, and a response's `Request.URL.Host`
never contains the character `'/'`, so the handler's third-party test
`!strings.Contains(resp.Request.URL.Host, targetURL)` holds for EVERY
response: the `Set-Cookie` cookies of every response are upserted, those
from the domain under test included — the claimed "never captured from the
target" direction of the iff fails. -/
theorem onResponse_captures_every_host (domain : String) (store : List Cookie)
    (resp : Response) (h : '/' ∉ resp.host.data) :
    onResponse (mkTargetURL domain) store resp = upsertAll store resp.setCookies := by
  have hfalse := goContains_mkTargetURL_eq_false resp.host domain h
  simp [onResponse, hfalse]

/-- Claim C1, witness: auditing `example.com`, a response originating from
`example.com` itself — the domain under test — still has its `Set-Cookie`
cookie captured into the store. -/
theorem onResponse_captures_every_host_witness :
    onResponse (mkTargetURL "example.com") []
      { host := "example.com", setCookies := [ckA] } = [ckA] := by
  rw [onResponse_captures_every_host "example.com" []
    { host := "example.com", setCookies := [ckA] } (by decide)]
  rfl

/-- Claim C4 (the bug it runs into): dually, the `OnRequest` handler's test
`strings.Contains(req.URL.Host, targetURL)` compares a bare host against the
scheme-prefixed `"https://" + domain` and can never hold, so NO outbound
request is ever decorated with the stored cookies — not even one whose
destination host is exactly the domain under test. -/
theorem onRequest_never_decorates (domain : String) (store : List Cookie)
    (req : Request) (h : '/' ∉ req.host.data) :
    onRequest (mkTargetURL domain) store req = req := by
  have hfalse := goContains_mkTargetURL_eq_false req.host domain h
  simp [onRequest, hfalse]

/-- Claim C4, witness: a request bound for `example.com` while auditing
`example.com`, with a nonempty store, passes through undecorated. -/
theorem onRequest_never_decorates_witness :
    onRequest (mkTargetURL "example.com") [ckA]
      { host := "example.com", cookieHeader := [] } =
      { host := "example.com", cookieHeader := [] } :=
  onRequest_never_decorates "example.com" [ckA]
    { host := "example.com", cookieHeader := [] } (by decide)

lemma loopSaves_enumFrom (l : List String) (n lastIdx : Nat) :
    loopSaves (List.enumFrom n l) lastIdx =
      ((List.range' n l.length).filter (fun i => lastIdx ≤ i)).map (· + 1) := by
  induction l generalizing n with
  | nil => rfl
  | cons d l ih =>
    show loopSaves ((n, d) :: List.enumFrom (n + 1) l) lastIdx = _
    rw [List.length_cons, List.range'_succ n l.length 1]
    by_cases hn : n < lastIdx
    · have hle : ¬ lastIdx ≤ n := by omega
      simp [loopSaves, hn, hle, ih]
    · have hle : lastIdx ≤ n := by omega
      simp [loopSaves, hn, hle, ih]

/-- Claim C5: with indices below the loaded checkpoint skipped, the loop
persists `i + 1` immediately after processing the domain at index `i`, for
every in-range `i`, in order (the loop's saves are exactly the processed
indices each advanced by one); and the last value persisted once the loop
has exhausted the list is the reset value `0`. -/
theorem main_checkpoint_progression (domains : List String) (lastIdx : Nat) :
    loopSaves domains.enum lastIdx =
      ((List.range domains.length).filter (fun i => lastIdx ≤ i)).map (· + 1)
    ∧ (mainSaves domains lastIdx).getLast? = some 0 := by
  constructor
  · rw [show domains.enum = List.enumFrom 0 domains from rfl,
        List.range_eq_range' domains.length, loopSaves_enumFrom]
  · rw [mainSaves, List.getLast?_concat]

/-- Claim C6: when the probes obtain no value within the allotted attempts
(the `-1` sentinel survives every evaluation, with no evaluation error), the
documented defaults are substituted — `cmpId = 0` (no default argument was
passed), `cmpVersion = 1`, `vendorListVersion = 189` — and `setConsent`
succeeds, so the session's action sequence runs to completion (`Done`)
instead of aborting the domain. -/
theorem cmpMetadata_defaults_pipeline_done :
    setConsentMeta (.value (-1)) (.value (-1)) (.value (-1)) =
      .ok { cmpId := 0, cmpVersion := 1, vendorListVersion := 189 }
    ∧ sessionOutcome (.value (-1)) (.value (-1)) (.value (-1)) = .Done :=
  ⟨rfl, rfl⟩

/-- Claim C7: loading the checkpoint returns the parsed integer when the
file exists and holds a valid integer; it returns `0` when the file is
absent (the read fails) and when its content does not parse as an integer. -/
theorem loadProgress_total_spec (file : Option String) :
    (∀ s i, file = some s → goAtoi s = some i → loadProgress file = i)
    ∧ (file = none → loadProgress file = 0)
    ∧ (∀ s, file = some s → goAtoi s = none → loadProgress file = 0) := by
  refine ⟨?_, ?_, ?_⟩
  · rintro s i rfl hp
    simp [loadProgress, hp]
  · rintro rfl
    rfl
  · rintro s rfl hp
    simp [loadProgress, hp]

/-- Claim C7, witness: a checkpoint file holding `"42"` loads as `42`; an
absent file and a file holding `"abc"` both load as `0`. -/
theorem loadProgress_total_spec_witness :
    loadProgress (some "42") = 42 ∧ loadProgress none = 0 ∧ loadProgress (some "abc") = 0 :=
  ⟨(loadProgress_total_spec (some "42")).1 "42" 42 rfl (by decide),
   (loadProgress_total_spec none).2.1 rfl,
   (loadProgress_total_spec (some "abc")).2.2 "abc" rfl (by decide)⟩

lemma digitChar_val :
    ∀ d < 10, (Nat.digitChar d).toNat = 48 + d ∧ (Nat.digitChar d).isDigit = true := by
  decide

lemma digitsVal_append_singleton (l : List Char) (c : Char) :
    digitsVal (l ++ [c]) = digitsVal l * 10 + (c.toNat - 48) := by
  simp [digitsVal, List.foldl_append]

lemma natToDigits_spec (n : Nat) :
    natToDigits n ≠ [] ∧ (natToDigits n).all Char.isDigit = true
      ∧ digitsVal (natToDigits n) = n := by
  induction n using Nat.strong_induction_on with
  | _ n ih =>
    rw [natToDigits]
    split
    case isTrue h =>
      obtain ⟨h1, h2⟩ := digitChar_val n h
      refine ⟨by simp, by simp [h2], ?_⟩
      simp only [digitsVal, List.foldl_cons, List.foldl_nil, h1]
      omega
    case isFalse h =>
      obtain ⟨h1, h2, h3⟩ := ih (n / 10) (Nat.div_lt_self (by omega) (by omega))
      have hm : n % 10 < 10 := Nat.mod_lt _ (by omega)
      obtain ⟨hc1, hc2⟩ := digitChar_val (n % 10) hm
      refine ⟨by simp, ?_, ?_⟩
      · simp [List.all_append, h2, hc2]
      · rw [digitsVal_append_singleton, h3, hc1]
        omega

lemma goAtoiChars_digits {cs : List Char} (hne : cs ≠ [])
    (hdig : cs.all Char.isDigit = true) :
    goAtoiChars cs = some ((digitsVal cs : Int)) := by
  cases cs with
  | nil => exact absurd rfl hne
  | cons c cs =>
    have hc : c.isDigit = true := List.all_eq_true.1 hdig c (List.mem_cons_self c cs)
    have hplus : c ≠ '+' := fun h => by subst h; exact absurd hc (by decide)
    have hminus : c ≠ '-' := fun h => by subst h; exact absurd hc (by decide)
    simp [goAtoiChars, hplus, hminus, hdig]

lemma goAtoi_goItoa (i : Int) : goAtoi (goItoa i) = some i := by
  obtain ⟨hne, hdig, hval⟩ := natToDigits_spec i.natAbs
  rw [goItoa]
  split
  case isTrue hneg =>
    show goAtoiChars ('-' :: natToDigits i.natAbs) = some i
    have h1 : ('-' : Char) ≠ '+' := by decide
    have heq : goAtoiChars ('-' :: natToDigits i.natAbs)
        = some (-(digitsVal (natToDigits i.natAbs) : Int)) := by
      simp [goAtoiChars, h1, hne, hdig]
    rw [heq, hval]
    congr 1
    omega
  case isFalse hpos =>
    show goAtoiChars (natToDigits i.natAbs) = some i
    rw [goAtoiChars_digits hne hdig, hval, Int.natAbs_of_nonneg (show (0 : Int) ≤ i by omega)]

/-- Claim C9: saving checkpoint `i` writes exactly `strconv.Itoa(i)`, and
loading that file back parses it to exactly `i`: the save/load pair is a
round-trip through the single-integer file encoding. -/
theorem saveProgress_loadProgress_roundtrip (i : Int) :
    loadProgress (saveProgress i) = i := by
  have h := goAtoi_goItoa i
  simp [saveProgress, loadProgress, h]

lemma goSplitDot_ne_nil (cs : List Char) : goSplitDot cs ≠ [] := by
  cases cs with
  | nil => simp [goSplitDot]
  | cons c cs =>
    by_cases hc : c = '.'
    · simp [goSplitDot, hc]
    · simp only [goSplitDot, if_neg hc]
      split <;> simp

lemma goSplitDot_headD (cs : List Char) :
    (goSplitDot cs).headD [] = cs.takeWhile (fun c => c ≠ '.') := by
  induction cs with
  | nil => rfl
  | cons c cs ih =>
    by_cases hc : c = '.'
    · subst hc
      simp [goSplitDot, List.takeWhile_cons]
    · simp only [goSplitDot, if_neg hc]
      rcases hsplit : goSplitDot cs with _ | ⟨p, ps⟩
      · exact absurd hsplit (goSplitDot_ne_nil cs)
      · rw [hsplit] at ih
        simp only [List.headD_cons] at ih
        simp [List.takeWhile_cons, hc, ih]

lemma firstDotSegment_eq_takeWhile (s : String) :
    firstDotSegment s = s.data.takeWhile (fun c => c ≠ '.') :=
  goSplitDot_headD s.data

/-- Claim C8: each emitted row's strings-agree flag is true iff the injected
and reported consent strings agree on their `Split(·, ".")[0]` segment,
which is exactly the run of characters before the first `'.'`; its
status-changed flag is true iff the two event statuses differ; and exactly
one row is emitted per non-expired cookie. -/
theorem emitRows_flags (website tc api sb sa : String) (cookies : List Cookie) (now : GoTime) :
    (emitRows website cookies tc api sb sa now).length =
      (cookies.filter (fun c => !isCookieExpired (some c) now)).length
    ∧ ∀ row ∈ emitRows website cookies tc api sb sa now,
        (row.stringsEqual = true ↔
          tc.data.takeWhile (fun c => c ≠ '.') = api.data.takeWhile (fun c => c ≠ '.'))
        ∧ (row.statusUpdated = true ↔ sb ≠ sa) := by
  constructor
  · simp [emitRows]
  · intro row hrow
    rw [emitRows, List.mem_map] at hrow
    obtain ⟨c, _, rfl⟩ := hrow
    refine ⟨?_, by simp⟩
    simp [firstDotSegment_eq_takeWhile]

/-- Claim C8, witness: with one non-expired cookie, injected string
`"abc.x"` and reported string `"abc.y"` (which agree before the first dot)
and differing event statuses, the single emitted row has both flags true. -/
theorem emitRows_flags_witness :
    (rowW.stringsEqual = true ↔
      "abc.x".data.takeWhile (fun c => c ≠ '.') = "abc.y".data.takeWhile (fun c => c ≠ '.'))
    ∧ (rowW.statusUpdated = true ↔ ("tcloaded" : String) ≠ "cmpuishown") :=
  (emitRows_flags "w" "abc.x" "abc.y" "tcloaded" "cmpuishown" [ckA] 0).2 rowW (by decide)

end IABCompliance
